import Mathlib

/- Verification of the alias-extraction pipeline of extract_curl_args.py:
   the table extractor (parse_aliases), the normalizer (fill_out_aliases),
   the splitter (split) and the marker-delimited output splicer.
   Python strings are modelled as Lean `String` (a structure over `List Char`),
   Python dicts keyed by strings as insertion-ordered association lists, and
   Python exceptions as `Except Err`. -/

set_option autoImplicit false

namespace CurlArgs

universe u

variable {α : Type u}

/-! ### String helpers mirroring the Python string operations -/

/-- Model of `s.startswith(p)` on character lists. -/
def startsWithL : List Char → List Char → Bool
  | [], _ => true
  | _ :: _, [] => false
  | c :: cs, d :: ds => c = d && startsWithL cs ds

/-- Model of Python substring containment (`p in s`) on character lists. -/
def containsL (p : List Char) : List Char → Bool
  | [] => startsWithL p []
  | d :: ds => startsWithL p (d :: ds) || containsL p ds

/-- Model of the Python `in` substring test on strings. -/
def containsStr (needle s : String) : Bool := containsL needle.data s.data

/-- The whitespace characters stripped by Python's `str.strip()`. -/
def pyIsSpace (c : Char) : Bool :=
  c = ' ' || c = '\t' || c = '\n' || c = '\r' || c = Char.ofNat 11 || c = Char.ofNat 12

/-- Drop characters satisfying `p` from both ends of a character list. -/
def dropEnds (p : Char → Bool) (l : List Char) : List Char :=
  ((l.dropWhile p).reverse.dropWhile p).reverse

/-- Model of Python `str.strip()` (no argument: strip whitespace). -/
def pyStrip (s : String) : String := ⟨dropEnds pyIsSpace s.data⟩

/-- Model of Python `str.strip(cs)`: strip any of the characters of `cs` from both ends. -/
def pyStripChars (cs : String) (s : String) : String :=
  ⟨dropEnds (fun c => cs.data.contains c) s.data⟩

/-- Model of Python `s.startswith(p)`. -/
def pyStartsWith (p s : String) : Bool := startsWithL p.data s.data

/-- Model of Python `s.endswith(p)`. -/
def pyEndsWith (p s : String) : Bool := startsWithL p.data.reverse s.data.reverse

/-- Model of Python `s.removeprefix(p)`. -/
def dropPre (p s : String) : String :=
  if startsWithL p.data s.data then ⟨s.data.drop p.data.length⟩ else s

/-- Model of Python `s.lower()`. -/
def pyLower (s : String) : String := ⟨s.data.map Char.toLower⟩

/-- Split a character list at every occurrence of the character `c`
(model of Python `s.split(",")`). -/
def splitChar (c : Char) : List Char → List (List Char)
  | [] => [[]]
  | d :: ds =>
    match splitChar c ds with
    | [] => [[d]]
    | h :: t => if d = c then [] :: h :: t else (d :: h) :: t

/-- The part of a line before the first occurrence of `p`
(model of `line.split("/*")[0]`). -/
def beforeSubAux (p : List Char) : List Char → List Char
  | [] => []
  | d :: ds => if startsWithL p (d :: ds) then [] else d :: beforeSubAux p ds

/-- Model of `line.split("/*")[0]`: the text before any inline C comment. -/
def beforeComment (s : String) : String := ⟨beforeSubAux "/*".data s.data⟩

/-! ### Constants of the script -/

def JS_PARAMS_START : String := "BEGIN GENERATED CURL OPTIONS"

def JS_PARAMS_END : String := "END GENERATED CURL OPTIONS"

def OPTS_START : String := "struct LongShort aliases[]= \x7b"

def OPTS_END : String := "\x7d;"

def BOOL_TYPES : List String := ["bool", "none"]

def STR_TYPES : List String := ["string", "filename"]

def ALIAS_TYPES : List String := BOOL_TYPES ++ STR_TYPES

/-- The hand-maintained collision table `DUPES` (lname of a renamed option
mapped to the canonical name), as an association list in source order. -/
def DUPES : List (String × String) :=
  [("krb", "krb"),
   ("krb4", "krb"),
   ("ftp-ssl", "ssl"),
   ("ssl", "ssl"),
   ("ftp-ssl-reqd", "ssl-reqd"),
   ("ssl-reqd", "ssl-reqd"),
   ("proxy-service-name", "proxy-service-name"),
   ("socks5-gssapi-service", "proxy-service-name")]

/-! ### Data model -/

/-- An alias record `{letter, lname, type}` with the optional `name` and
`expand` keys added by the normalizer. -/
structure Alias where
  letter : String
  lname : String
  type : String
  name : Option String := none
  expand : Option Bool := none
deriving DecidableEq, Repr

/-- A long-option value: the alias record minus its `letter` and `lname` keys. -/
structure LongVal where
  type : String
  name : Option String := none
  expand : Option Bool := none
deriving DecidableEq, Repr

/-- The failure modes of the script (Python exceptions). -/
inductive Err where
  | malformedRow (line : String)
  | malformedAlias (lname desc : String)
  | letterLength (lname : String)
  | keyError (lname : String)
  | missingStart
  | missingEnd
deriving DecidableEq, Repr

/-- Insertion-ordered dict update `m[k] = v`: an existing key keeps its
position, a new key is appended. -/
def odUpdate (m : List (String × α)) (k : String) (v : α) : List (String × α) :=
  match m with
  | [] => [(k, v)]
  | (k', v') :: t => if k' = k then (k, v) :: t else (k', v') :: odUpdate t k v

/-- Dict lookup `m[k]` returning `none` when the key is absent. -/
def odLookup (k : String) : List (String × α) → Option α
  | [] => none
  | (k', v) :: t => if k' = k then some v else odLookup k t

/-! ### The extractor (parse_aliases) -/

/-- The first `for` loop of `parse_aliases`: consume lines up to and including
the first line containing `OPTS_START`; if there is none the iterator is
exhausted and nothing is left. -/
def dropThroughStart : List String → List String
  | [] => []
  | l :: rest => if containsStr OPTS_START l then rest else dropThroughStart rest

/-- The row-parsing part of the loop body of `parse_aliases`: unpack the three
comma-separated fields (a `ValueError` when the unpacking fails), trim them,
rewrite `filename` to `string`, run the two validation checks — the letter
check keeps the source's vacuous chained comparison `1 > len(letter) > 2` —
and store the alias in the lname-keyed dict. -/
def parseRow (acc : List (String × Alias)) (l : String) : Except Err (List (String × Alias)) :=
  match splitChar ',' (pyStripChars "\x7b\x7d," (pyStrip (beforeComment l))).data with
  | [f1, f2, f3] =>
    let letter := pyStripChars "\"" (pyStrip ⟨f1⟩)
    let lname := pyStripChars "\"" (pyStrip ⟨f2⟩)
    let type0 := pyLower (dropPre "ARG_" (pyStrip ⟨f3⟩))
    let type1 := if type0 = "filename" then "string" else type0
    if 1 > letter.length ∧ letter.length > 2 then .error (.letterLength lname)
    else if type1 ∉ ALIAS_TYPES then .error (.malformedAlias lname (String.mk f3))
    else .ok (odUpdate acc lname (Alias.mk letter lname type1 none none))
  | _ => .error (.malformedRow l)

/-- The second `for` loop of `parse_aliases`, carrying the insertion-ordered
`aliases` dict keyed by lname. -/
def parseLines : List String → List (String × Alias) → Except Err (List (String × Alias))
  | [], acc => .ok acc
  | line :: rest, acc =>
    let l := pyStrip line
    if pyEndsWith OPTS_END l then .ok acc
    else if !(pyStartsWith "\x7b" (pyStrip l)) then parseLines rest acc
    else
      match parseRow acc l with
      | .error e => .error e
      | .ok acc' => parseLines rest acc'

/-- `parse_aliases`: skip to the table start, parse the rows into the
lname-keyed dict, and return the dict's values in insertion order. -/
def parseAliases (lines : List String) : Except Err (List Alias) :=
  match parseLines (dropThroughStart lines) [] with
  | .error e => .error e
  | .ok m => .ok (m.map Prod.snd)

/-! ### The normalizer (fill_out_aliases) -/

/-- The `Counter` of `letter` values over the input sequence. -/
def letterCount (aliases : List Alias) (l : String) : Nat :=
  (aliases.filter (fun a => decide (a.letter = l))).length

/-- The tail of the per-alias loop body of `fill_out_aliases`: synthesize the
`--no-OPTION` counterpart of a `bool` alias, or downgrade a `none` alias to
`bool`. Returns the (possibly mutated) alias together with the optional
synthetic counterpart collected into `no_aliases`. -/
def finishAlias (a : Alias) : Alias × Option Alias :=
  if a.type = "bool" then
    (a, some { a with
                name := some (a.name.getD a.lname),
                lname := "no-" ++ a.lname,
                expand := some false })
  else if a.type = "none" then
    ({ a with type := "bool" }, none)
  else (a, none)

/-- The negation-prefix step of the loop of `fill_out_aliases`: for a
`bool`/`none` alias whose lname strips to a different string under
`removeprefix("no-").removeprefix("disable-")`, record the stripped string
as `name`. -/
def stripNamed (a : Alias) : Alias :=
  if a.type ∈ BOOL_TYPES then
    (if a.lname ≠ dropPre "disable-" (dropPre "no-" a.lname) then
      { a with name := some (dropPre "disable-" (dropPre "no-" a.lname)) }
    else a)
  else a

/-- The collision step of the loop of `fill_out_aliases`: look the lname up in
`DUPES` (`KeyError` when absent) and record the canonical name when it
differs from the lname. -/
def resolveDupe (a : Alias) : Except Err Alias :=
  match odLookup a.lname DUPES with
  | none => .error (.keyError a.lname)
  | some candidate =>
    .ok (if a.lname ≠ candidate then { a with name := some candidate } else a)

/-- One iteration of the loop of `fill_out_aliases`: negation-prefix stripping
for `bool`/`none` aliases, collision resolution through `DUPES` when the
letter occurs more than once, then `finishAlias`. -/
def processAlias (lc : String → Nat) (a : Alias) : Except Err (Alias × Option Alias) :=
  let a1 := stripNamed a
  if lc a1.letter > 1 then
    match resolveDupe a1 with
    | .error e => .error e
    | .ok a2 => .ok (finishAlias a2)
  else .ok (finishAlias a1)

/-- Run an `Except`-valued function over a list, stopping at the first error
(the loop of `fill_out_aliases` aborts on the first uncaught `KeyError`). -/
def mapExcept {β : Type} {γ : Type} (f : β → Except Err γ) : List β → Except Err (List γ)
  | [] => .ok []
  | b :: t =>
    match f b with
    | .error e => .error e
    | .ok c =>
      match mapExcept f t with
      | .error e => .error e
      | .ok cs => .ok (c :: cs)

/-- The `no_aliases` list of `fill_out_aliases`: each synthetic alias paired
with the index of the alias that produced it. -/
def collectNo : List (Alias × Option Alias) → Nat → List (Nat × Alias)
  | [], _ => []
  | (_, some b) :: t, k => (k, b) :: collectNo t (k + 1)
  | (_, none) :: t, k => collectNo t (k + 1)

/-- Python `list.insert(n, x)`: insert before index `n`, clamping to the end. -/
def insIdx (n : Nat) (x : α) : List α → List α
  | [] => [x]
  | h :: t =>
    match n with
    | 0 => x :: h :: t
    | m + 1 => h :: insIdx m x t

/-- The insertion loop of `fill_out_aliases`:
`aliases.insert(insert_idx + i + 1, no_alias)` for the i-th synthetic alias. -/
def insertLoop : List Alias → List (Nat × Alias) → Nat → List Alias
  | xs, [], _ => xs
  | xs, (idx, na) :: rest, i => insertLoop (insIdx (idx + i + 1) na xs) rest (i + 1)

/-- `fill_out_aliases`: process every alias with the letter counter of the
input list, then insert the synthetic `--no-` aliases after their sources. -/
def fillOutAliases (aliases : List Alias) : Except Err (List Alias) :=
  match mapExcept (processAlias (letterCount aliases)) aliases with
  | .error e => .error e
  | .ok ps => .ok (insertLoop (ps.map Prod.fst) (collectNo ps 0) 0)

/-! ### The splitter (split) -/

/-- The short-option value written for an alias: `name` if present else
`lname`, with the hardcoded `-N` exception prepending `"no-"`. -/
def shortName (a : Alias) : String :=
  let n := a.name.getD a.lname
  if a.letter = "N" then "no-" ++ n else n

/-- The loop of `split`, carrying the two insertion-ordered dicts. -/
def splitGo :
    List Alias → List (String × LongVal) → List (String × String) →
      List (String × LongVal) × List (String × String)
  | [], l, s => (l, s)
  | a :: rest, l, s =>
    splitGo rest (odUpdate l a.lname ⟨a.type, a.name, a.expand⟩)
      (if a.letter.length = 1 then odUpdate s a.letter (shortName a) else s)

/-- `split`: partition the normalized sequence into the long-option mapping
and the short-option mapping. -/
def split (aliases : List Alias) : List (String × LongVal) × List (String × String) :=
  splitGo aliases [] []

/-! ### The output splicer (the `__main__` block) -/

/-- The first splice loop: append lines up to and including the first line
containing the start marker; `none` when the marker is missing. -/
def takeThroughMarker (marker : String) : List String → Option (List String × List String)
  | [] => none
  | l :: rest =>
    if containsStr marker l then some ([l], rest)
    else
      match takeThroughMarker marker rest with
      | none => none
      | some (pre, post) => some (l :: pre, post)

/-- The second splice loop: skip lines until the first line containing the end
marker, returning that line and the remainder; `none` when missing. -/
def dropToMarker (marker : String) : List String → Option (String × List String)
  | [] => none
  | l :: rest => if containsStr marker l then some (l, rest) else dropToMarker marker rest

/-- The splicing step of the `__main__` block: keep everything up to and
including the start-marker line, insert the generated lines, drop the old
region up to the end-marker line, and keep everything from there on. -/
def spliceOutput (dest gen : List String) : Except Err (List String) :=
  match takeThroughMarker JS_PARAMS_START dest with
  | none => .error .missingStart
  | some (pre, rest) =>
    match dropToMarker JS_PARAMS_END rest with
    | none => .error .missingEnd
    | some (endLine, post) => .ok (pre ++ gen ++ endLine :: post)

/-! ### Spec-side definitions used to state the claims -/

/-- Test (from the spec's wording of the negation invariant) that `b` is the
synthetic counterpart of the boolean alias `a`: same letter and type,
`lname = "no-" + a.lname`, `name` = `a`'s name if present else `a`'s lname,
and `expand = false`. -/
def isNoCounterpartB (a b : Alias) : Bool :=
  decide (b.letter = a.letter) && decide (b.type = a.type) &&
  decide (b.lname = "no-" ++ a.lname) &&
  decide (b.name = some (a.name.getD a.lname)) && decide (b.expand = some false)

/-- Test (from the spec's negation invariant) that every non-synthetic
`bool`-typed alias of the sequence is immediately followed by its synthetic
`--no-` counterpart. -/
def boolsNegated : List Alias → Bool
  | [] => true
  | a :: rest =>
    (if a.expand = none ∧ a.type = "bool" then
      match rest with
      | [] => false
      | b :: _ => isNoCounterpartB a b
    else true) && boolsNegated rest

/-- Modelled from the spec: reduction of a normalized sequence "back to raw
alias form" (the spec's round-trip idempotence wording; no such function
exists in the source): drop the synthetic `expand`-marked entries and the
added `name` keys, keeping `{letter, lname, type}`. -/
def toRaw (aliases : List Alias) : List Alias :=
  (aliases.filter (fun a => decide (a.expand = none))).map (fun a => { a with name := none })

/-- The interleaved output shape of the normalizer: each processed alias
followed by its synthetic counterpart when one was collected. -/
def flattenPs : List (Alias × Option Alias) → List Alias
  | [] => []
  | (a, none) :: t => a :: flattenPs t
  | (a, some b) :: t => a :: b :: flattenPs t

/-- The expected lnames of the normalizer's output: each input lname followed
by its `no-` form when the input type is `bool`. -/
def outLnames : List Alias → List String
  | [] => []
  | a :: t =>
    if a.type = "bool" then a.lname :: ("no-" ++ a.lname) :: outLnames t
    else a.lname :: outLnames t

/-! ### Helper lemmas -/

theorem noPre_inj {x y : String} (h : "no-" ++ x = "no-" ++ y) : x = y := by
  have h3 : x.data = y.data := List.append_cancel_left (congrArg String.data h)
  cases x; cases y; exact congrArg String.mk h3

theorem mem_odUpdate {m : List (String × α)} {k : String} {v : α} {kv : String × α}
    (h : kv ∈ odUpdate m k v) : kv = (k, v) ∨ kv ∈ m := by
  induction m with
  | nil => simpa [odUpdate] using h
  | cons hd t ih =>
    obtain ⟨k', v'⟩ := hd
    by_cases hk : k' = k
    · simp only [odUpdate, if_pos hk] at h
      rcases List.mem_cons.mp h with h1 | h1
      · exact Or.inl h1
      · exact Or.inr (List.mem_cons.mpr (Or.inr h1))
    · simp only [odUpdate, if_neg hk] at h
      rcases List.mem_cons.mp h with h1 | h1
      · exact Or.inr (List.mem_cons.mpr (Or.inl h1))
      · rcases ih h1 with h2 | h2
        · exact Or.inl h2
        · exact Or.inr (List.mem_cons.mpr (Or.inr h2))

theorem odLookup_odUpdate_self (m : List (String × α)) (k : String) (v : α) :
    odLookup k (odUpdate m k v) = some v := by
  induction m with
  | nil => simp [odUpdate, odLookup]
  | cons hd t ih =>
    obtain ⟨k', v'⟩ := hd
    by_cases hk : k' = k
    · simp [odUpdate, odLookup, hk]
    · simp [odUpdate, odLookup, hk, ih]

theorem odLookup_odUpdate_ne (m : List (String × α)) {k k' : String} (v : α)
    (h : k' ≠ k) : odLookup k' (odUpdate m k v) = odLookup k' m := by
  have hne : ¬ k = k' := fun hh => h hh.symm
  induction m with
  | nil => simp [odUpdate, odLookup, hne]
  | cons hd t ih =>
    obtain ⟨k0, v0⟩ := hd
    by_cases hk : k0 = k
    · subst hk
      have hne0 : ¬ k0 = k' := hne
      simp only [odUpdate, if_pos rfl, odLookup, if_neg hne0]
    · simp only [odUpdate, if_neg hk, odLookup]
      by_cases hk' : k0 = k'
      · simp [hk']
      · simp [hk', ih]

theorem mapExcept_ok_forall₂ {β γ : Type} {f : β → Except Err γ} :
    ∀ {l : List β} {l' : List γ}, mapExcept f l = .ok l' →
      List.Forall₂ (fun b c => f b = .ok c) l l' := by
  intro l
  induction l with
  | nil => intro l' h; simp only [mapExcept] at h; cases h; constructor
  | cons b t ih =>
    intro l' h
    simp only [mapExcept] at h
    cases hb : f b with
    | error e => rw [hb] at h; cases h
    | ok c =>
      rw [hb] at h
      cases ht : mapExcept f t with
      | error e => rw [ht] at h; cases h
      | ok cs =>
        rw [ht] at h
        cases h
        exact List.Forall₂.cons hb (ih ht)

theorem mapExcept_error_of_mem {β γ : Type} {f : β → Except Err γ} {l : List β}
    {b : β} {e : Err} (hmem : b ∈ l) (hb : f b = .error e) :
    ∃ e', mapExcept f l = .error e' := by
  induction l with
  | nil => cases hmem
  | cons hd t ih =>
    rcases List.mem_cons.mp hmem with h1 | h1
    · subst h1
      refine ⟨e, ?_⟩
      simp [mapExcept, hb]
    · cases hhd : f hd with
      | error e2 => exact ⟨e2, by simp [mapExcept, hhd]⟩
      | ok c =>
        obtain ⟨e', he'⟩ := ih h1
        exact ⟨e', by simp [mapExcept, hhd, he']⟩

theorem stripNamed_fields (a : Alias) :
    (stripNamed a).letter = a.letter ∧ (stripNamed a).lname = a.lname ∧
    (stripNamed a).type = a.type ∧ (stripNamed a).expand = a.expand := by
  unfold stripNamed
  split_ifs <;> exact ⟨rfl, rfl, rfl, rfl⟩

theorem stripNamed_name (a : Alias) :
    (stripNamed a).name = a.name ∨
      ∃ w, (stripNamed a).name = some w ∧ w ≠ a.lname := by
  unfold stripNamed
  split_ifs with h1 h2
  · exact Or.inr ⟨_, rfl, fun hh => h2 hh.symm⟩
  · exact Or.inl rfl
  · exact Or.inl rfl

theorem resolveDupe_ok_fields {a a2 : Alias} (h : resolveDupe a = .ok a2) :
    a2.letter = a.letter ∧ a2.lname = a.lname ∧ a2.type = a.type ∧
      a2.expand = a.expand := by
  unfold resolveDupe at h
  cases hl : odLookup a.lname DUPES with
  | none => rw [hl] at h; cases h
  | some c =>
    rw [hl] at h
    injection h with h2
    subst h2
    split_ifs <;> exact ⟨rfl, rfl, rfl, rfl⟩

theorem resolveDupe_error {a : Alias} {e : Err} (h : resolveDupe a = .error e) :
    e = .keyError a.lname := by
  unfold resolveDupe at h
  cases hl : odLookup a.lname DUPES with
  | none => rw [hl] at h; injection h with h2; exact h2.symm
  | some c => rw [hl] at h; cases h

theorem finishAlias_fst (a : Alias) :
    (finishAlias a).1 = if a.type = "none" then { a with type := "bool" } else a := by
  unfold finishAlias
  by_cases hb : a.type = "bool"
  · have hn : ¬ a.type = "none" := by rw [hb]; decide
    simp [hb, hn]
  · by_cases hn : a.type = "none" <;> simp [hb, hn]

theorem finishAlias_fst_name (a : Alias) : (finishAlias a).1.name = a.name := by
  rw [finishAlias_fst]
  split_ifs <;> rfl

theorem finishAlias_snd_bool {a : Alias} (h : a.type = "bool") :
    (finishAlias a).2 =
      some { a with
              name := some (a.name.getD a.lname),
              lname := "no-" ++ a.lname,
              expand := some false } := by
  simp [finishAlias, h]

theorem finishAlias_snd_nonbool {a : Alias} (h : ¬ a.type = "bool") :
    (finishAlias a).2 = none := by
  unfold finishAlias
  rw [if_neg h]
  split_ifs <;> rfl

theorem processAlias_error_shape {lc : String → Nat} {a : Alias} {e : Err}
    (h : processAlias lc a = .error e) : e = .keyError a.lname := by
  simp only [processAlias] at h
  by_cases hc : lc (stripNamed a).letter > 1
  · rw [if_pos hc] at h
    cases hr : resolveDupe (stripNamed a) with
    | error e2 =>
      rw [hr] at h
      injection h with h2
      rw [← h2, resolveDupe_error hr, (stripNamed_fields a).2.1]
    | ok a2 => rw [hr] at h; cases h
  · rw [if_neg hc] at h; cases h

theorem processAlias_ok_mid {lc : String → Nat} {a : Alias} {r : Alias × Option Alias}
    (h : processAlias lc a = .ok r) :
    ∃ x : Alias, x.letter = a.letter ∧ x.lname = a.lname ∧ x.type = a.type ∧
      x.expand = a.expand ∧ r = finishAlias x := by
  have hf := stripNamed_fields a
  simp only [processAlias] at h
  by_cases hc : lc (stripNamed a).letter > 1
  · rw [if_pos hc] at h
    cases hr : resolveDupe (stripNamed a) with
    | error e => rw [hr] at h; cases h
    | ok a2 =>
      rw [hr] at h
      injection h with h2
      have hd := resolveDupe_ok_fields hr
      exact ⟨a2, hd.1.trans hf.1, hd.2.1.trans hf.2.1, hd.2.2.1.trans hf.2.2.1,
        hd.2.2.2.trans hf.2.2.2, h2.symm⟩
  · rw [if_neg hc] at h
    injection h with h2
    exact ⟨stripNamed a, hf.1, hf.2.1, hf.2.2.1, hf.2.2.2, h2.symm⟩

theorem processAlias_ok_fst {lc : String → Nat} {a : Alias} {r : Alias × Option Alias}
    (h : processAlias lc a = .ok r) :
    r.1.letter = a.letter ∧ r.1.lname = a.lname ∧ r.1.expand = a.expand ∧
      r.1.type = (if a.type = "none" then "bool" else a.type) := by
  obtain ⟨x, h1, h2, h3, h4, h5⟩ := processAlias_ok_mid h
  subst h5
  rw [finishAlias_fst]
  by_cases hn : x.type = "none"
  · have ha : a.type = "none" := h3.symm.trans hn
    simp [hn, ha, h1, h2, h4]
  · have ha : ¬ a.type = "none" := fun hh => hn (h3.trans hh)
    simp [hn, ha, h1, h2, h3, h4]

theorem processAlias_ok_snd {lc : String → Nat} {a : Alias} {r : Alias × Option Alias}
    (h : processAlias lc a = .ok r) :
    (a.type = "bool" →
      ∃ b, r.2 = some b ∧ b.lname = "no-" ++ a.lname ∧ b.expand = some false ∧
        b.type = "bool" ∧ isNoCounterpartB r.1 b = true) ∧
    (¬ a.type = "bool" → r.2 = none) := by
  obtain ⟨x, h1, h2, h3, h4, h5⟩ := processAlias_ok_mid h
  subst h5
  constructor
  · intro ht
    have hx : x.type = "bool" := h3.trans ht
    have hn : ¬ x.type = "none" := by rw [hx]; decide
    refine ⟨_, finishAlias_snd_bool hx, ?_, rfl, hx, ?_⟩
    · show "no-" ++ x.lname = "no-" ++ a.lname
      rw [h2]
    · rw [finishAlias_fst, if_neg hn]
      simp [isNoCounterpartB, hx]
  · intro ht
    exact finishAlias_snd_nonbool (fun hh => ht (h3.symm.trans hh))

theorem processAlias_ok_raw {lc : String → Nat} {a : Alias} {r : Alias × Option Alias}
    (h : processAlias lc a = .ok r) (hname : a.name = none) (htype : ¬ a.type = "none") :
    ({ r.1 with name := none } : Alias) = a := by
  obtain ⟨x, h1, h2, h3, h4, h5⟩ := processAlias_ok_mid h
  subst h5
  rw [finishAlias_fst, if_neg (fun hh => htype (h3.symm.trans hh))]
  cases a with
  | mk al an at' aname aexp =>
    cases x with
    | mk xl xn xt xname xexp => simp_all

theorem processAlias_collision {lc : String → Nat} {a : Alias} {c : String}
    (hname : a.name = none) (hc : lc a.letter > 1) (hl : odLookup a.lname DUPES = some c) :
    ∃ r, processAlias lc a = .ok r ∧ (r.1.name = some c ↔ a.lname ≠ c) := by
  have hf := stripNamed_fields a
  have hsl : odLookup (stripNamed a).lname DUPES = some c := by rw [hf.2.1]; exact hl
  have hres : resolveDupe (stripNamed a) =
      .ok (if (stripNamed a).lname ≠ c then { stripNamed a with name := some c }
           else stripNamed a) := by
    unfold resolveDupe
    rw [hsl]
  simp only [processAlias]
  rw [hf.1, if_pos hc, hres]
  refine ⟨_, rfl, ?_⟩
  rw [finishAlias_fst_name]
  by_cases hd : a.lname = c
  · have hd' : ¬ (stripNamed a).lname ≠ c := by rw [hf.2.1]; exact fun hh => hh hd
    rw [if_neg hd']
    constructor
    · intro hn
      rcases stripNamed_name a with hs | ⟨w, hw, hwne⟩
      · rw [hs, hname] at hn; cases hn
      · rw [hw] at hn
        injection hn with hn2
        exact absurd (hn2.trans hd.symm) hwne
    · intro hne; exact absurd hd hne
  · rw [if_pos (by rw [hf.2.1]; exact hd)]
    simpa using hd

theorem insIdx_succ_cons (n : Nat) (x h : α) (t : List α) :
    insIdx (n + 1) x (h :: t) = h :: insIdx n x t := rfl

theorem insertLoop_shift (ys : List Alias) (a : Alias) (pairs : List (Nat × Alias)) (i : Nat) :
    insertLoop (a :: ys) (pairs.map (fun p => (p.1 + 1, p.2))) i =
      a :: insertLoop ys pairs i := by
  induction pairs generalizing ys i with
  | nil => rfl
  | cons p rest ih =>
    obtain ⟨n, x⟩ := p
    simp only [List.map_cons, insertLoop]
    have h1 : n + 1 + i + 1 = (n + i + 1) + 1 := by omega
    rw [h1, insIdx_succ_cons]
    exact ih _ _

theorem insertLoop_cons_idx (c : Alias) (ys : List Alias) (pairs : List (Nat × Alias)) (i : Nat) :
    insertLoop (c :: ys) pairs (i + 1) = c :: insertLoop ys pairs i := by
  induction pairs generalizing ys i with
  | nil => rfl
  | cons p rest ih =>
    obtain ⟨n, x⟩ := p
    simp only [insertLoop]
    have h1 : n + (i + 1) + 1 = (n + i + 1) + 1 := by omega
    rw [h1, insIdx_succ_cons]
    exact ih _ _

theorem collectNo_shift (ps : List (Alias × Option Alias)) (k : Nat) :
    collectNo ps (k + 1) = (collectNo ps k).map (fun p => (p.1 + 1, p.2)) := by
  induction ps generalizing k with
  | nil => rfl
  | cons p t ih =>
    obtain ⟨a, o⟩ := p
    cases o with
    | none => simp only [collectNo]; exact ih _
    | some b => simp only [collectNo, List.map_cons]; rw [ih]

theorem insertLoop_flatten (ps : List (Alias × Option Alias)) :
    insertLoop (ps.map Prod.fst) (collectNo ps 0) 0 = flattenPs ps := by
  induction ps with
  | nil => rfl
  | cons p t ih =>
    obtain ⟨a, o⟩ := p
    cases o with
    | none =>
      simp only [List.map_cons, collectNo, flattenPs]
      rw [collectNo_shift, insertLoop_shift, ih]
    | some b =>
      simp only [List.map_cons, collectNo, flattenPs]
      rw [collectNo_shift]
      show insertLoop (insIdx (0 + 0 + 1) b (a :: List.map Prod.fst t))
        ((collectNo t 0).map (fun p => (p.1 + 1, p.2))) (0 + 1) = _
      rw [show (0 + 0 + 1 : Nat) = 0 + 1 from rfl, insIdx_succ_cons]
      rw [show insIdx 0 b (List.map Prod.fst t) = b :: List.map Prod.fst t from ?_]
      · rw [insertLoop_shift, insertLoop_cons_idx, ih]
      · cases t <;> rfl

theorem fillOut_ok_ps {rs out : List Alias} (h : fillOutAliases rs = .ok out) :
    ∃ ps, mapExcept (processAlias (letterCount rs)) rs = .ok ps ∧ out = flattenPs ps := by
  unfold fillOutAliases at h
  cases hm : mapExcept (processAlias (letterCount rs)) rs with
  | error e => rw [hm] at h; cases h
  | ok ps =>
    rw [hm] at h
    injection h with h2
    exact ⟨ps, rfl, by rw [← h2, insertLoop_flatten]⟩

theorem fillOut_of_ps {rs : List Alias} {ps : List (Alias × Option Alias)}
    (hm : mapExcept (processAlias (letterCount rs)) rs = .ok ps) :
    fillOutAliases rs = .ok (flattenPs ps) := by
  unfold fillOutAliases
  rw [hm]
  show Except.ok (insertLoop (ps.map Prod.fst) (collectNo ps 0) 0) = _
  rw [insertLoop_flatten]

theorem mapExcept_error_from {β γ : Type} {f : β → Except Err γ} :
    ∀ {l : List β} {e : Err}, mapExcept f l = .error e → ∃ b ∈ l, f b = .error e := by
  intro l
  induction l with
  | nil => intro e h; simp only [mapExcept] at h; cases h
  | cons hd t ih =>
    intro e h
    simp only [mapExcept] at h
    cases hb : f hd with
    | error e2 =>
      rw [hb] at h
      injection h with h2
      exact ⟨hd, List.mem_cons_self hd t, by rw [hb, h2]⟩
    | ok c =>
      rw [hb] at h
      cases ht : mapExcept f t with
      | error e2 =>
        rw [ht] at h
        injection h with h2
        obtain ⟨b, hmem, hfb⟩ := ih (e := e2) ht
        exact ⟨b, List.mem_cons_of_mem hd hmem, by rw [hfb, h2]⟩
      | ok cs => rw [ht] at h; cases h

theorem fillOut_error_of_collision {rs : List Alias} {a : Alias}
    (hmem : a ∈ rs) (ha : odLookup a.lname DUPES = none)
    (hc : letterCount rs a.letter > 1) :
    ∃ l, fillOutAliases rs = .error (.keyError l) := by
  have hf := stripNamed_fields a
  have hpa : processAlias (letterCount rs) a = .error (.keyError a.lname) := by
    simp only [processAlias]
    rw [hf.1, if_pos hc]
    have hres : resolveDupe (stripNamed a) = .error (.keyError (stripNamed a).lname) := by
      unfold resolveDupe
      rw [show odLookup (stripNamed a).lname DUPES = none from by rw [hf.2.1]; exact ha]
    rw [hres, hf.2.1]
  obtain ⟨e', he'⟩ := mapExcept_error_of_mem hmem hpa
  obtain ⟨b, _, hb⟩ := mapExcept_error_from he'
  obtain he2 := processAlias_error_shape hb
  refine ⟨b.lname, ?_⟩
  unfold fillOutAliases
  rw [he', he2]

theorem isNoCounterpartB_iff {a b : Alias} :
    isNoCounterpartB a b = true ↔
      b.letter = a.letter ∧ b.type = a.type ∧ b.lname = "no-" ++ a.lname ∧
        b.name = some (a.name.getD a.lname) ∧ b.expand = some false := by
  simp only [isNoCounterpartB, Bool.and_eq_true, decide_eq_true_eq]
  tauto

theorem mem_of_forall₂ {β γ : Type} {R : β → γ → Prop} :
    ∀ {l : List β} {l' : List γ}, List.Forall₂ R l l' → ∀ c ∈ l', ∃ b ∈ l, R b c := by
  intro l l' h
  induction h with
  | nil => intro c hc; cases hc
  | cons hr _ ih =>
    intro c hc
    rcases List.mem_cons.mp hc with h1 | h1
    · subst h1; exact ⟨_, List.mem_cons_self _ _, hr⟩
    · obtain ⟨b, hb, hrb⟩ := ih c h1
      exact ⟨b, List.mem_cons_of_mem _ hb, hrb⟩

theorem boolsNegated_flatten :
    ∀ {ps : List (Alias × Option Alias)},
      (∀ p ∈ ps,
        (p.1.type = "bool" → ∃ b, p.2 = some b ∧ isNoCounterpartB p.1 b = true) ∧
        (¬ p.1.type = "bool" → p.2 = none)) →
      boolsNegated (flattenPs ps) = true := by
  intro ps
  induction ps with
  | nil => intro _; rfl
  | cons p t ih =>
    intro H
    obtain ⟨a, o⟩ := p
    have Hhead := H (a, o) (List.mem_cons_self _ _)
    have Htail : ∀ p ∈ t,
        (p.1.type = "bool" → ∃ b, p.2 = some b ∧ isNoCounterpartB p.1 b = true) ∧
        (¬ p.1.type = "bool" → p.2 = none) :=
      fun p hp => H p (List.mem_cons_of_mem _ hp)
    cases o with
    | none =>
      have hnb : ¬ a.type = "bool" := by
        intro hb
        obtain ⟨b, hb2, _⟩ := Hhead.1 hb
        cases hb2
      show boolsNegated (a :: flattenPs t) = true
      have hguard : ¬ (a.expand = none ∧ a.type = "bool") := fun hh => hnb hh.2
      simp only [boolsNegated, if_neg hguard, Bool.true_and]
      exact ih Htail
    | some b =>
      have hb : a.type = "bool" := by
        by_contra hnb
        cases Hhead.2 hnb
      obtain ⟨b', hb2, hcp⟩ := Hhead.1 hb
      have hbb : b' = b := by injection hb2 with h2; exact h2.symm
      subst hbb
      have hbe : b'.expand = some false := (isNoCounterpartB_iff.mp hcp).2.2.2.2
      show boolsNegated (a :: b' :: flattenPs t) = true
      have hg2 : ¬ (b'.expand = none ∧ b'.type = "bool") := by
        rintro ⟨hh, -⟩
        rw [hbe] at hh
        cases hh
      have h3 : boolsNegated (b' :: flattenPs t) = true := by
        simp only [boolsNegated, if_neg hg2, Bool.true_and]
        exact ih Htail
      by_cases hg1 : a.expand = none ∧ a.type = "bool"
      · simp only [boolsNegated, if_pos hg1]
        rw [hcp]
        simpa [boolsNegated, if_neg hg2] using ih Htail
      · simp only [boolsNegated, if_neg hg1, Bool.true_and]
        exact h3

theorem flatten_lnames {lc : String → Nat} :
    ∀ {rs : List Alias} {ps : List (Alias × Option Alias)},
      List.Forall₂ (fun a p => processAlias lc a = .ok p) rs ps →
      (flattenPs ps).map (fun a => a.lname) = outLnames rs := by
  intro rs ps h
  induction h with
  | nil => rfl
  | cons hr htail ih =>
    rename_i a p t t'
    obtain ⟨a', o⟩ := p
    have hfst := processAlias_ok_fst hr
    have hsnd := processAlias_ok_snd hr
    by_cases hb : a.type = "bool"
    · obtain ⟨b, ho, hlname, _, _, _⟩ := hsnd.1 hb
      cases ho
      show (a' :: b :: flattenPs t').map _ = outLnames (a :: t)
      simp only [List.map_cons, outLnames, if_pos hb]
      rw [hfst.2.1, hlname, ih]
    · have ho := hsnd.2 hb
      cases ho
      show (a' :: flattenPs t').map _ = outLnames (a :: t)
      simp only [List.map_cons, outLnames, if_neg hb]
      rw [hfst.2.1, ih]

theorem toRaw_cons (x : Alias) (l : List Alias) :
    toRaw (x :: l) =
      if x.expand = none then { x with name := none } :: toRaw l else toRaw l := by
  simp only [toRaw, List.filter_cons]
  by_cases hx : x.expand = none
  · simp [hx]
  · simp [hx]

theorem toRaw_flatten {lc : String → Nat} :
    ∀ {rs : List Alias} {ps : List (Alias × Option Alias)},
      List.Forall₂ (fun a p => processAlias lc a = .ok p) rs ps →
      (∀ a ∈ rs, a.name = none ∧ a.expand = none ∧ ¬ a.type = "none") →
      toRaw (flattenPs ps) = rs := by
  intro rs ps h
  induction h with
  | nil => intro _; rfl
  | cons hr htail ih =>
    rename_i a p t t'
    intro hraw
    obtain ⟨ha1, ha2, ha3⟩ := hraw a (List.mem_cons_self _ _)
    have hrawt : ∀ x ∈ t, x.name = none ∧ x.expand = none ∧ ¬ x.type = "none" :=
      fun x hx => hraw x (List.mem_cons_of_mem _ hx)
    obtain ⟨a', o⟩ := p
    have hfst := processAlias_ok_fst hr
    have hexp : a'.expand = none := by rw [hfst.2.2.1]; exact ha2
    have hrawres : ({ a' with name := none } : Alias) = a := processAlias_ok_raw hr ha1 ha3
    cases o with
    | none =>
      show toRaw (a' :: flattenPs t') = a :: t
      rw [toRaw_cons, if_pos hexp, hrawres, ih hrawt]
    | some b =>
      have hb : a.type = "bool" := by
        by_contra hnb
        cases (processAlias_ok_snd hr).2 hnb
      obtain ⟨b', ho, _, hbe, _, _⟩ := (processAlias_ok_snd hr).1 hb
      have hbb : b' = b := by injection ho with h2; exact h2.symm
      subst hbb
      show toRaw (a' :: b' :: flattenPs t') = a :: t
      have hbne : ¬ b'.expand = none := by rw [hbe]; intro hh; cases hh
      rw [toRaw_cons, if_pos hexp, toRaw_cons, if_neg hbne, hrawres, ih hrawt]

theorem flatten_types {lc : String → Nat} :
    ∀ {rs : List Alias} {ps : List (Alias × Option Alias)},
      List.Forall₂ (fun a p => processAlias lc a = .ok p) rs ps →
      (∀ a ∈ rs, a.type = "string" ∨ a.type = "bool" ∨ a.type = "none") →
      ∀ x ∈ flattenPs ps, x.type = "string" ∨ x.type = "bool" := by
  intro rs ps h
  induction h with
  | nil => intro _ x hx; cases hx
  | cons hr htail ih =>
    rename_i a p t t'
    intro htypes
    have hta := htypes a (List.mem_cons_self _ _)
    have htt : ∀ x ∈ t, x.type = "string" ∨ x.type = "bool" ∨ x.type = "none" :=
      fun x hx => htypes x (List.mem_cons_of_mem _ hx)
    obtain ⟨a', o⟩ := p
    have hfst := processAlias_ok_fst hr
    have hfsttype : a'.type = "string" ∨ a'.type = "bool" := by
      rw [hfst.2.2.2]
      by_cases hn : a.type = "none"
      · rw [if_pos hn]; exact Or.inr rfl
      · rw [if_neg hn]
        rcases hta with h1 | h1 | h1
        · exact Or.inl h1
        · exact Or.inr h1
        · exact absurd h1 hn
    cases o with
    | none =>
      intro x hx
      rcases List.mem_cons.mp hx with h1 | h1
      · subst h1; exact hfsttype
      · exact ih htt x h1
    | some b =>
      have hb : a.type = "bool" := by
        by_contra hnb
        cases (processAlias_ok_snd hr).2 hnb
      obtain ⟨b', ho, _, _, hbt, _⟩ := (processAlias_ok_snd hr).1 hb
      have hbb : b' = b := by injection ho with h2; exact h2.symm
      subst hbb
      intro x hx
      rcases List.mem_cons.mp hx with h1 | h1
      · subst h1; exact hfsttype
      · rcases List.mem_cons.mp h1 with h2 | h2
        · subst h2; exact Or.inr hbt
        · exact ih htt x h2

/-- The per-entry invariant of the extractor's lname-keyed dict. -/
def entryInv (kv : String × Alias) : Prop :=
  kv.2.lname = kv.1 ∧ kv.2.name = none ∧ kv.2.expand = none ∧
    (kv.2.type = "string" ∨ kv.2.type = "bool" ∨ kv.2.type = "none")

theorem odUpdate_keys_mem {m : List (String × α)} {k x : String} {v : α}
    (h : x ∈ (odUpdate m k v).map Prod.fst) : x ∈ m.map Prod.fst ∨ x = k := by
  obtain ⟨kv, hkv, hx⟩ := List.mem_map.mp h
  rcases mem_odUpdate hkv with h1 | h1
  · subst h1; exact Or.inr hx.symm
  · exact Or.inl (List.mem_map.mpr ⟨kv, h1, hx⟩)

theorem odUpdate_keys_nodup {m : List (String × α)} {k : String} {v : α}
    (h : (m.map Prod.fst).Nodup) : ((odUpdate m k v).map Prod.fst).Nodup := by
  induction m with
  | nil => simp [odUpdate]
  | cons hd t ih =>
    obtain ⟨k', v'⟩ := hd
    rw [List.map_cons, List.nodup_cons] at h
    by_cases hk : k' = k
    · subst hk
      have heq : odUpdate ((k', v') :: t) k' v = (k', v) :: t := by simp [odUpdate]
      rw [heq, List.map_cons, List.nodup_cons]
      exact h
    · have heq : odUpdate ((k', v') :: t) k v = (k', v') :: odUpdate t k v := by
        simp [odUpdate, hk]
      rw [heq, List.map_cons, List.nodup_cons]
      refine ⟨?_, ih h.2⟩
      intro hmem
      rcases odUpdate_keys_mem hmem with h1 | h1
      · exact h.1 h1
      · exact hk h1

theorem vacuous_letter_check (n : Nat) : ¬ (1 > n ∧ n > 2) := by omega

theorem parseRow_inv {acc acc' : List (String × Alias)} {l : String}
    (h : parseRow acc l = .ok acc')
    (hP : ∀ kv ∈ acc, entryInv kv) (hN : (acc.map Prod.fst).Nodup) :
    (∀ kv ∈ acc', entryInv kv) ∧ (acc'.map Prod.fst).Nodup := by
  unfold parseRow at h
  split at h
  · rename_i f1 f2 f3 heq
    rw [if_neg (vacuous_letter_check _)] at h
    by_cases hfn : pyLower (dropPre "ARG_" (pyStrip (String.mk f3))) = "filename"
    · simp only [if_pos hfn] at h
      rw [if_neg (show ¬ ("string" : String) ∉ ALIAS_TYPES from by decide)] at h
      injection h with h2
      subst h2
      refine ⟨?_, odUpdate_keys_nodup hN⟩
      intro kv hkv
      rcases mem_odUpdate hkv with h1 | h1
      · subst h1
        exact ⟨rfl, rfl, rfl, Or.inl rfl⟩
      · exact hP kv h1
    · simp only [if_neg hfn] at h
      by_cases ht : pyLower (dropPre "ARG_" (pyStrip (String.mk f3))) ∉ ALIAS_TYPES
      · rw [if_pos ht] at h; cases h
      · rw [if_neg ht] at h
        injection h with h2
        subst h2
        refine ⟨?_, odUpdate_keys_nodup hN⟩
        intro kv hkv
        rcases mem_odUpdate hkv with h1 | h1
        · subst h1
          refine ⟨rfl, rfl, rfl, ?_⟩
          rw [Decidable.not_not] at ht
          have ht' : pyLower (dropPre "ARG_" (pyStrip (String.mk f3))) = "bool" ∨
              pyLower (dropPre "ARG_" (pyStrip (String.mk f3))) = "none" ∨
              pyLower (dropPre "ARG_" (pyStrip (String.mk f3))) = "string" ∨
              pyLower (dropPre "ARG_" (pyStrip (String.mk f3))) = "filename" := by
            simpa [ALIAS_TYPES, BOOL_TYPES, STR_TYPES] using ht
          rcases ht' with h2 | h2 | h2 | h2
          · exact Or.inr (Or.inl h2)
          · exact Or.inr (Or.inr h2)
          · exact Or.inl h2
          · exact absurd h2 hfn
        · exact hP kv h1
  · cases h

theorem parseLines_inv :
    ∀ (lines : List String) (acc m : List (String × Alias)),
      parseLines lines acc = .ok m →
      (∀ kv ∈ acc, entryInv kv) → (acc.map Prod.fst).Nodup →
      (∀ kv ∈ m, entryInv kv) ∧ (m.map Prod.fst).Nodup := by
  intro lines
  induction lines with
  | nil =>
    intro acc m h hP hN
    simp only [parseLines] at h
    cases h
    exact ⟨hP, hN⟩
  | cons line rest ih =>
    intro acc m h hP hN
    simp only [parseLines] at h
    split at h
    · cases h; exact ⟨hP, hN⟩
    · split at h
      · exact ih _ _ h hP hN
      · cases hr : parseRow acc (pyStrip line) with
        | error e => rw [hr] at h; cases h
        | ok acc' =>
          rw [hr] at h
          obtain ⟨hP', hN'⟩ := parseRow_inv hr hP hN
          exact ih _ _ h hP' hN'

theorem parseAliases_inv {lines : List String} {rs : List Alias}
    (h : parseAliases lines = .ok rs) :
    (∀ a ∈ rs, a.name = none ∧ a.expand = none ∧
      (a.type = "string" ∨ a.type = "bool" ∨ a.type = "none")) ∧
    (rs.map (fun a => a.lname)).Nodup := by
  unfold parseAliases at h
  cases hm : parseLines (dropThroughStart lines) [] with
  | error e => rw [hm] at h; cases h
  | ok m =>
    rw [hm] at h
    injection h with h2
    subst h2
    obtain ⟨hP, hN⟩ := parseLines_inv _ _ _ hm (by intro kv hkv; cases hkv) (by simp)
    constructor
    · intro a ha
      obtain ⟨kv, hkv, hx⟩ := List.mem_map.mp ha
      obtain ⟨_, h2, h3, h4⟩ := hP kv hkv
      subst hx
      exact ⟨h2, h3, h4⟩
    · have : (m.map Prod.snd).map (fun a => a.lname) = m.map Prod.fst := by
        rw [List.map_map]
        exact List.map_congr_left (fun kv hkv => (hP kv hkv).1)
      rw [this]
      exact hN

theorem splitGo_short_persist :
    ∀ (rest : List Alias) (l : List (String × LongVal)) (s : List (String × String))
      {k : String}, (∃ v, odLookup k s = some v) →
      ∃ v, odLookup k (splitGo rest l s).2 = some v := by
  intro rest
  induction rest with
  | nil => intro l s k h; exact h
  | cons a t ih =>
    intro l s k h
    show ∃ v, odLookup k (splitGo t _ _).2 = some v
    apply ih
    by_cases h1 : a.letter.length = 1
    · rw [if_pos h1]
      by_cases hk : k = a.letter
      · subst hk
        exact ⟨_, odLookup_odUpdate_self _ _ _⟩
      · obtain ⟨v, hv⟩ := h
        exact ⟨v, by rw [odLookup_odUpdate_ne _ _ hk]; exact hv⟩
    · rw [if_neg h1]; exact h

theorem splitGo_short_covers :
    ∀ (rest : List Alias) (l : List (String × LongVal)) (s : List (String × String))
      (a : Alias), a ∈ rest → a.letter.length = 1 →
      ∃ v, odLookup a.letter (splitGo rest l s).2 = some v := by
  intro rest
  induction rest with
  | nil => intro l s a ha; cases ha
  | cons hd t ih =>
    intro l s a ha hlen
    rcases List.mem_cons.mp ha with h1 | h1
    · subst h1
      show ∃ v, odLookup a.letter (splitGo t _ _).2 = some v
      apply splitGo_short_persist
      rw [if_pos hlen]
      exact ⟨_, odLookup_odUpdate_self _ _ _⟩
    · exact ih _ _ a h1 hlen

theorem splitGo_short_source :
    ∀ (rest : List Alias) (l : List (String × LongVal)) (s : List (String × String))
      {k v : String}, (k, v) ∈ (splitGo rest l s).2 →
      (k, v) ∈ s ∨ ∃ a ∈ rest, a.letter = k ∧ a.letter.length = 1 ∧ v = shortName a := by
  intro rest
  induction rest with
  | nil => intro l s k v h; exact Or.inl h
  | cons hd t ih =>
    intro l s k v h
    rcases ih _ _ h with h1 | h1
    · by_cases hlen : hd.letter.length = 1
      · rw [if_pos hlen] at h1
        rcases mem_odUpdate h1 with h2 | h2
        · injection h2 with h2a h2b
          exact Or.inr ⟨hd, List.mem_cons_self _ _, h2a.symm, hlen, h2b⟩
        · exact Or.inl h2
      · rw [if_neg hlen] at h1
        exact Or.inl h1
    · obtain ⟨a, ha, rest⟩ := h1
      exact Or.inr ⟨a, List.mem_cons_of_mem _ ha, rest⟩

theorem splitGo_long_source :
    ∀ (rest : List Alias) (l : List (String × LongVal)) (s : List (String × String))
      {k : String} {v : LongVal}, (k, v) ∈ (splitGo rest l s).1 →
      (k, v) ∈ l ∨ ∃ a ∈ rest, a.lname = k := by
  intro rest
  induction rest with
  | nil => intro l s k v h; exact Or.inl h
  | cons hd t ih =>
    intro l s k v h
    rcases ih _ _ h with h1 | h1
    · rcases mem_odUpdate h1 with h2 | h2
      · injection h2 with h2a _
        exact Or.inr ⟨hd, List.mem_cons_self _ _, h2a.symm⟩
      · exact Or.inl h2
    · obtain ⟨a, ha, hrest⟩ := h1
      exact Or.inr ⟨a, List.mem_cons_of_mem _ ha, hrest⟩

theorem mem_outLnames :
    ∀ {rs : List Alias} {x : String}, x ∈ outLnames rs →
      (∃ b ∈ rs, x = b.lname) ∨ (∃ b ∈ rs, b.type = "bool" ∧ x = "no-" ++ b.lname) := by
  intro rs
  induction rs with
  | nil => intro x h; cases h
  | cons a t ih =>
    intro x h
    by_cases hb : a.type = "bool"
    · rw [outLnames, if_pos hb] at h
      rcases List.mem_cons.mp h with h1 | h1
      · exact Or.inl ⟨a, List.mem_cons_self _ _, h1⟩
      · rcases List.mem_cons.mp h1 with h2 | h2
        · exact Or.inr ⟨a, List.mem_cons_self _ _, hb, h2⟩
        · rcases ih h2 with ⟨b, hbt, hx⟩ | ⟨b, hbt, hbty, hx⟩
          · exact Or.inl ⟨b, List.mem_cons_of_mem _ hbt, hx⟩
          · exact Or.inr ⟨b, List.mem_cons_of_mem _ hbt, hbty, hx⟩
    · rw [outLnames, if_neg hb] at h
      rcases List.mem_cons.mp h with h1 | h1
      · exact Or.inl ⟨a, List.mem_cons_self _ _, h1⟩
      · rcases ih h1 with ⟨b, hbt, hx⟩ | ⟨b, hbt, hbty, hx⟩
        · exact Or.inl ⟨b, List.mem_cons_of_mem _ hbt, hx⟩
        · exact Or.inr ⟨b, List.mem_cons_of_mem _ hbt, hbty, hx⟩

theorem outLnames_nodup :
    ∀ {rs : List Alias}, (rs.map (fun a => a.lname)).Nodup →
      (∀ a b : Alias, a ∈ rs → b ∈ rs → b.type = "bool" → a.lname ≠ "no-" ++ b.lname) →
      (outLnames rs).Nodup := by
  intro rs
  induction rs with
  | nil => intro _ _; exact List.nodup_nil
  | cons a t ih =>
    intro hN hno
    rw [List.map_cons, List.nodup_cons] at hN
    have hnot : ∀ x b : Alias, x ∈ t → b ∈ t → b.type = "bool" → x.lname ≠ "no-" ++ b.lname :=
      fun x b hx hbm => hno x b (List.mem_cons_of_mem _ hx) (List.mem_cons_of_mem _ hbm)
    have haself := List.mem_cons_self a t
    have hmem1 : a.lname ∉ outLnames t := by
      intro hmem
      rcases mem_outLnames hmem with ⟨b, hbt, hx⟩ | ⟨b, hbt, hbty, hx⟩
      · exact hN.1 (hx ▸ List.mem_map.mpr ⟨b, hbt, rfl⟩)
      · exact hno a b haself (List.mem_cons_of_mem _ hbt) hbty hx
    by_cases hb : a.type = "bool"
    · rw [outLnames, if_pos hb]
      have hmem2 : ("no-" ++ a.lname) ∉ outLnames t := by
        intro hmem
        rcases mem_outLnames hmem with ⟨b, hbt, hx⟩ | ⟨b, hbt, hbty, hx⟩
        · exact hno b a (List.mem_cons_of_mem _ hbt) haself hb hx.symm
        · have : a.lname = b.lname := noPre_inj hx
          exact hN.1 (this ▸ List.mem_map.mpr ⟨b, hbt, rfl⟩)
      rw [List.nodup_cons, List.nodup_cons]
      refine ⟨?_, ?_, ih hN.2 hnot⟩
      · intro hmem
        rcases List.mem_cons.mp hmem with h1 | h1
        · exact hno a a haself haself hb h1
        · exact hmem1 h1
      · exact hmem2
    · rw [outLnames, if_neg hb, List.nodup_cons]
      exact ⟨hmem1, ih hN.2 hnot⟩

theorem filter_lname_nil {out : List Alias} {k : String}
    (h : k ∉ out.map (fun a => a.lname)) :
    out.filter (fun a => decide (a.lname = k)) = [] := by
  induction out with
  | nil => rfl
  | cons a t ih =>
    rw [List.map_cons] at h
    have h1 : ¬ a.lname = k := fun hh => h (hh ▸ List.mem_cons_self _ _)
    have h2 : k ∉ t.map (fun a => a.lname) := fun hh => h (List.mem_cons_of_mem _ hh)
    simp only [List.filter_cons, decide_eq_true_eq, h1, if_false, decide_eq_false h1]
    exact ih h2

theorem count_lname_one {out : List Alias} {k : String}
    (hN : (out.map (fun a => a.lname)).Nodup) (hk : k ∈ out.map (fun a => a.lname)) :
    (out.filter (fun a => decide (a.lname = k))).length = 1 := by
  induction out with
  | nil => cases hk
  | cons a t ih =>
    rw [List.map_cons, List.nodup_cons] at hN
    by_cases h1 : a.lname = k
    · subst h1
      rw [List.filter_cons, filter_lname_nil hN.1]
      simp
    · rw [List.map_cons] at hk
      rcases List.mem_cons.mp hk with h2 | h2
      · exact absurd h2.symm h1
      · rw [List.filter_cons]
        simp only [decide_eq_false h1, Bool.false_eq_true, if_false]
        exact ih hN.2 h2

theorem takeThrough_append {m : String} :
    ∀ {A : List String} {s : String} {R : List String},
      (∀ l ∈ A, containsStr m l = false) → containsStr m s = true →
      takeThroughMarker m (A ++ s :: R) = some (A ++ [s], R) := by
  intro A
  induction A with
  | nil =>
    intro s R _ hs
    simp only [List.nil_append, takeThroughMarker, hs]
    rfl
  | cons l t ih =>
    intro s R hA hs
    have hl : containsStr m l = false := hA l (List.mem_cons_self _ _)
    have ht : ∀ x ∈ t, containsStr m x = false := fun x hx => hA x (List.mem_cons_of_mem _ hx)
    simp only [List.cons_append, takeThroughMarker, hl, Bool.false_eq_true, if_false,
      List.append_eq, ih ht hs]

theorem dropTo_append {m : String} :
    ∀ {X : List String} {e : String} {B : List String},
      (∀ l ∈ X, containsStr m l = false) → containsStr m e = true →
      dropToMarker m (X ++ e :: B) = some (e, B) := by
  intro X
  induction X with
  | nil =>
    intro e B _ he
    simp only [List.nil_append, dropToMarker, he]
    rfl
  | cons l t ih =>
    intro e B hX he
    have hl : containsStr m l = false := hX l (List.mem_cons_self _ _)
    have ht : ∀ x ∈ t, containsStr m x = false := fun x hx => hX x (List.mem_cons_of_mem _ hx)
    simp only [List.cons_append, dropToMarker, hl, Bool.false_eq_true, if_false,
      List.append_eq, ih ht he]

/-! ### The claims -/

/-- C1 (counterexample): the claim as stated fails on the code. A `none`-typed
raw alias survives normalization as a `bool`-typed non-synthetic alias with no
synthetic `--no-` entry following it, so not every boolean-typed alias of the
normalized output is followed by a synthetic counterpart. -/
theorem c1_counterexample :
    parseAliases ["struct LongShort aliases[]= \x7b",
        "  \x7b\"Z\", \"zzz\", ARG_NONE\x7d,", "\x7d;"]
      = .ok [Alias.mk "Z" "zzz" "none" none none] ∧
    fillOutAliases [Alias.mk "Z" "zzz" "none" none none]
      = .ok [Alias.mk "Z" "zzz" "bool" none none] ∧
    boolsNegated [Alias.mk "Z" "zzz" "bool" none none] = false :=
  ⟨rfl, rfl, rfl⟩

/-- C1 (amended): provided the raw sequence contains no `none`-typed alias
(and is raw, i.e. without `expand` marks), every non-synthetic `bool`-typed
alias of the normalized output is immediately followed by exactly one
synthetic alias with the same letter and type, `lname = "no-" + lname`,
`name` = the original's name if present else its lname, and `expand = false`. -/
theorem c1_bool_negation {rs out : List Alias}
    (hraw : ∀ a ∈ rs, a.expand = none ∧ ¬ a.type = "none")
    (h : fillOutAliases rs = .ok out) :
    boolsNegated out = true := by
  obtain ⟨ps, hm, hout⟩ := fillOut_ok_ps h
  subst hout
  apply boolsNegated_flatten
  intro p hp
  obtain ⟨a, ha, hrel⟩ := mem_of_forall₂ (mapExcept_ok_forall₂ hm) p hp
  have hfst := processAlias_ok_fst hrel
  have hsnd := processAlias_ok_snd hrel
  obtain ⟨hexp, hnone⟩ := hraw a ha
  have htype_eq : p.1.type = a.type := by rw [hfst.2.2.2, if_neg hnone]
  constructor
  · intro hb
    obtain ⟨b, ho, _, _, _, hcp⟩ := hsnd.1 (htype_eq.symm.trans hb)
    exact ⟨b, ho, hcp⟩
  · intro hnb
    exact hsnd.2 (fun hh => hnb (htype_eq.trans hh))

/-- C1 (witness): the amended theorem applied to the singleton `bool` alias
`--data`. -/
theorem c1_bool_negation_witness :
    ((∀ a ∈ [Alias.mk "d" "data" "bool" none none], a.expand = none ∧ ¬ a.type = "none") ∧
      fillOutAliases [Alias.mk "d" "data" "bool" none none] =
        .ok [Alias.mk "d" "data" "bool" none none,
          Alias.mk "d" "no-data" "bool" (some "data") (some false)]) ∧
    boolsNegated [Alias.mk "d" "data" "bool" none none,
      Alias.mk "d" "no-data" "bool" (some "data") (some false)] = true :=
  ⟨⟨by decide, rfl⟩,
    @c1_bool_negation [Alias.mk "d" "data" "bool" none none]
      [Alias.mk "d" "data" "bool" none none,
        Alias.mk "d" "no-data" "bool" (some "data") (some false)] (by decide) rfl⟩

/-- C2 (code bug): the extractor's letter-length validation is the vacuous
chained comparison `1 > len(letter) > 2`, so a row whose letter has length 3
is accepted instead of failing with the intended MalformedAlias error; the
extractor emits an alias whose letter has length 3. -/
theorem c2_letter_check_vacuous :
    parseAliases ["struct LongShort aliases[]= \x7b",
        "  \x7b\"abc\", \"foo\", ARG_NONE\x7d,", "\x7d;"]
      = .ok [Alias.mk "abc" "foo" "none" none none] ∧
    (Alias.mk "abc" "foo" "none" none none).letter.length = 3 :=
  ⟨rfl, rfl⟩

/-- C3: for an alias whose letter collides (occurs more than once), a lname
absent from DUPES makes normalization fail with a KeyError (the
UnresolvedCollision error), and a lname present in DUPES makes the alias
receive `name` = the canonical name exactly when its lname differs from it. -/
theorem c3_collision_resolution {rs : List Alias} {a : Alias}
    (hmem : a ∈ rs) (hname : a.name = none) (hc : letterCount rs a.letter > 1) :
    (odLookup a.lname DUPES = none → ∃ l, fillOutAliases rs = .error (.keyError l)) ∧
    (∀ c, odLookup a.lname DUPES = some c →
      ∃ r, processAlias (letterCount rs) a = .ok r ∧ (r.1.name = some c ↔ a.lname ≠ c)) := by
  constructor
  · intro hl
    exact fillOut_error_of_collision hmem hl hc
  · intro c hl
    exact processAlias_collision hname hc hl

/-- C3 (witness): the theorem applied to the `ftp-ssl`/`ssl` collision of the
spec's own example. -/
theorem c3_collision_resolution_witness :
    ((Alias.mk "s" "ftp-ssl" "string" none none ∈
        [Alias.mk "s" "ftp-ssl" "string" none none, Alias.mk "s" "ssl" "string" none none]) ∧
      letterCount [Alias.mk "s" "ftp-ssl" "string" none none,
        Alias.mk "s" "ssl" "string" none none] "s" > 1) ∧
    ((odLookup "ftp-ssl" DUPES = none →
        ∃ l, fillOutAliases [Alias.mk "s" "ftp-ssl" "string" none none,
          Alias.mk "s" "ssl" "string" none none] = .error (.keyError l)) ∧
      (∀ c, odLookup "ftp-ssl" DUPES = some c →
        ∃ r, processAlias (letterCount [Alias.mk "s" "ftp-ssl" "string" none none,
            Alias.mk "s" "ssl" "string" none none])
            (Alias.mk "s" "ftp-ssl" "string" none none) = .ok r ∧
          (r.1.name = some c ↔ ("ftp-ssl" : String) ≠ c))) :=
  ⟨⟨by decide, by decide⟩,
    @c3_collision_resolution
      [Alias.mk "s" "ftp-ssl" "string" none none, Alias.mk "s" "ssl" "string" none none]
      (Alias.mk "s" "ftp-ssl" "string" none none) (by decide) rfl (by decide)⟩

/-- C4: the single row `{"V", "version", ARG_NONE}` runs through the full
pipeline into one long-option entry `version ↦ {type: bool}`, one short-option
entry `V ↦ version`, and no alias with lname `no-version` anywhere. -/
theorem c4_version_example :
    parseAliases ["struct LongShort aliases[]= \x7b",
        "  \x7b\"V\", \"version\", ARG_NONE\x7d,", "\x7d;"]
      = .ok [Alias.mk "V" "version" "none" none none] ∧
    fillOutAliases [Alias.mk "V" "version" "none" none none]
      = .ok [Alias.mk "V" "version" "bool" none none] ∧
    split [Alias.mk "V" "version" "bool" none none]
      = ([("version", LongVal.mk "bool" none none)], [("V", "version")]) ∧
    List.filter (fun a => decide (a.lname = "no-version"))
      [Alias.mk "V" "version" "bool" none none] = [] :=
  ⟨rfl, rfl, rfl, rfl⟩

/-- C5: for every successfully extracted sequence the types are in
`{string, bool, none}` (never `filename`), and after normalization every
alias's type is in `{string, bool}` (never `none`). -/
theorem c5_types {lines : List String} {rs out : List Alias}
    (hp : parseAliases lines = .ok rs) (hf : fillOutAliases rs = .ok out) :
    (∀ a ∈ rs, a.type = "string" ∨ a.type = "bool" ∨ a.type = "none") ∧
    (∀ a ∈ out, a.type = "string" ∨ a.type = "bool") := by
  have hinv := parseAliases_inv hp
  have htypes : ∀ a ∈ rs, a.type = "string" ∨ a.type = "bool" ∨ a.type = "none" :=
    fun a ha => (hinv.1 a ha).2.2
  refine ⟨htypes, ?_⟩
  obtain ⟨ps, hm, hout⟩ := fillOut_ok_ps hf
  subst hout
  exact flatten_types (mapExcept_ok_forall₂ hm) htypes

/-- C5 (witness): the theorem applied to a pipeline run over one
`ARG_FILENAME` row, which is extracted as type `string`. -/
theorem c5_types_witness :
    (parseAliases ["struct LongShort aliases[]= \x7b",
        "  \x7b\"o\", \"output\", ARG_FILENAME\x7d,", "\x7d;"]
      = .ok [Alias.mk "o" "output" "string" none none] ∧
    fillOutAliases [Alias.mk "o" "output" "string" none none]
      = .ok [Alias.mk "o" "output" "string" none none]) ∧
    ((∀ a ∈ [Alias.mk "o" "output" "string" none none],
        a.type = "string" ∨ a.type = "bool" ∨ a.type = "none") ∧
      (∀ a ∈ [Alias.mk "o" "output" "string" none none],
        a.type = "string" ∨ a.type = "bool")) :=
  ⟨⟨rfl, rfl⟩,
    @c5_types ["struct LongShort aliases[]= \x7b",
        "  \x7b\"o\", \"output\", ARG_FILENAME\x7d,", "\x7d;"]
      [Alias.mk "o" "output" "string" none none]
      [Alias.mk "o" "output" "string" none none] rfl rfl⟩

/-- C6: every alias with a 1-character letter has a short-option entry under
that letter, and every short-option entry comes from some alias with a
1-character letter, its value being the alias's `name` if present else its
`lname`, with `"no-"` prepended exactly for the letter `"N"`. 2-character
letters contribute no entry. -/
theorem c6_short_mapping (as : List Alias) :
    (∀ a ∈ as, a.letter.length = 1 → ∃ v, odLookup a.letter (split as).2 = some v) ∧
    (∀ k v : String, (k, v) ∈ (split as).2 →
      ∃ a ∈ as, a.letter = k ∧ a.letter.length = 1 ∧
        v = (if a.letter = "N" then "no-" ++ (a.name.getD a.lname)
             else a.name.getD a.lname)) := by
  constructor
  · intro a ha hlen
    exact splitGo_short_covers as [] [] a ha hlen
  · intro k v hkv
    rcases splitGo_short_source as [] [] hkv with h1 | h1
    · cases h1
    · obtain ⟨a, ha, h2, h3, h4⟩ := h1
      exact ⟨a, ha, h2, h3, h4⟩

/-- C6 (witness): the theorem applied to a normalized singleton, showing its
short-option entry exists. -/
theorem c6_short_mapping_witness :
    ((Alias.mk "V" "version" "bool" none none ∈ [Alias.mk "V" "version" "bool" none none]) ∧
      (Alias.mk "V" "version" "bool" none none).letter.length = 1) ∧
    ∃ v, odLookup "V" (split [Alias.mk "V" "version" "bool" none none]).2 = some v :=
  ⟨⟨by decide, by decide⟩,
    (c6_short_mapping [Alias.mk "V" "version" "bool" none none]).1
      (Alias.mk "V" "version" "bool" none none) (by decide) (by decide)⟩

/-- C7 (counterexample): splicing is not content-preserving for arbitrary `A`:
when a line of `A` itself contains the start marker, the splicer cuts at that
earlier line, so the result is not `A + start + gen + end + B`. -/
theorem c7_counterexample :
    spliceOutput ["// BEGIN GENERATED CURL OPTIONS", "// BEGIN GENERATED CURL OPTIONS",
        "// END GENERATED CURL OPTIONS"] ["G"]
      = .ok ["// BEGIN GENERATED CURL OPTIONS", "G", "// END GENERATED CURL OPTIONS"] ∧
    ["// BEGIN GENERATED CURL OPTIONS", "G", "// END GENERATED CURL OPTIONS"] ≠
      ["// BEGIN GENERATED CURL OPTIONS"] ++ "// BEGIN GENERATED CURL OPTIONS" ::
        (["G"] ++ "// END GENERATED CURL OPTIONS" :: ([] : List String)) :=
  ⟨rfl, by decide⟩

/-- C7 (amended): splicing preserves all destination content outside the
marker region, provided no line of `A` contains the start marker and no line
of `X` contains the end marker: the result on `A + s + X + e + B` is exactly
`A + s + gen + e + B`. -/
theorem c7_splice_frame {A X B gen : List String} {s e : String}
    (hs : containsStr JS_PARAMS_START s = true) (he : containsStr JS_PARAMS_END e = true)
    (hA : ∀ l ∈ A, containsStr JS_PARAMS_START l = false)
    (hX : ∀ l ∈ X, containsStr JS_PARAMS_END l = false) :
    spliceOutput (A ++ s :: (X ++ e :: B)) gen = .ok (A ++ s :: (gen ++ e :: B)) := by
  unfold spliceOutput
  rw [takeThrough_append hA hs]
  dsimp only
  rw [dropTo_append hX he]
  dsimp only
  have : (A ++ [s]) ++ gen ++ e :: B = A ++ s :: (gen ++ e :: B) := by
    simp [List.append_assoc]
  rw [this]

/-- C7 (witness): the amended theorem applied to a one-line prefix, old
region, and suffix. -/
theorem c7_splice_frame_witness :
    (containsStr JS_PARAMS_START "// BEGIN GENERATED CURL OPTIONS" = true ∧
      containsStr JS_PARAMS_END "// END GENERATED CURL OPTIONS" = true ∧
      (∀ l ∈ ["pre"], containsStr JS_PARAMS_START l = false) ∧
      (∀ l ∈ ["old"], containsStr JS_PARAMS_END l = false)) ∧
    spliceOutput (["pre"] ++ "// BEGIN GENERATED CURL OPTIONS" ::
        (["old"] ++ "// END GENERATED CURL OPTIONS" :: ["post"])) ["g"]
      = .ok (["pre"] ++ "// BEGIN GENERATED CURL OPTIONS" ::
        (["g"] ++ "// END GENERATED CURL OPTIONS" :: ["post"])) :=
  ⟨⟨by decide, by decide, by decide, by decide⟩,
    @c7_splice_frame ["pre"] ["old"] ["post"] ["g"]
      "// BEGIN GENERATED CURL OPTIONS" "// END GENERATED CURL OPTIONS"
      (by decide) (by decide) (by decide) (by decide)⟩

/-- C8 (counterexample): round-trip idempotence fails on a `none`-typed alias:
normalization emits it as `bool`, reduction to raw form keeps `bool`, and the
re-run then synthesizes a `--no-` entry absent from the first run's output. -/
theorem c8_counterexample :
    fillOutAliases [Alias.mk "Q" "qqq" "none" none none]
      = .ok [Alias.mk "Q" "qqq" "bool" none none] ∧
    toRaw [Alias.mk "Q" "qqq" "bool" none none] = [Alias.mk "Q" "qqq" "bool" none none] ∧
    fillOutAliases [Alias.mk "Q" "qqq" "bool" none none]
      = .ok [Alias.mk "Q" "qqq" "bool" none none,
          Alias.mk "Q" "no-qqq" "bool" (some "qqq") (some false)] ∧
    [Alias.mk "Q" "qqq" "bool" none none,
      Alias.mk "Q" "no-qqq" "bool" (some "qqq") (some false)] ≠
      [Alias.mk "Q" "qqq" "bool" none none] :=
  ⟨rfl, rfl, rfl, by decide⟩

/-- C8 (amended): for a raw sequence without `none`-typed aliases, reducing
the normalized output back to raw form and normalizing again yields the same
normalized output. -/
theorem c8_idempotent {rs out : List Alias}
    (hraw : ∀ a ∈ rs, a.name = none ∧ a.expand = none ∧ ¬ a.type = "none")
    (h : fillOutAliases rs = .ok out) :
    fillOutAliases (toRaw out) = .ok out := by
  obtain ⟨ps, hm, hout⟩ := fillOut_ok_ps h
  subst hout
  rw [toRaw_flatten (mapExcept_ok_forall₂ hm) hraw]
  exact h

/-- C8 (witness): the amended theorem applied to a singleton `bool` alias. -/
theorem c8_idempotent_witness :
    ((∀ a ∈ [Alias.mk "d" "data" "bool" none none],
        a.name = none ∧ a.expand = none ∧ ¬ a.type = "none") ∧
      fillOutAliases [Alias.mk "d" "data" "bool" none none] =
        .ok [Alias.mk "d" "data" "bool" none none,
          Alias.mk "d" "no-data" "bool" (some "data") (some false)]) ∧
    fillOutAliases (toRaw [Alias.mk "d" "data" "bool" none none,
        Alias.mk "d" "no-data" "bool" (some "data") (some false)]) =
      .ok [Alias.mk "d" "data" "bool" none none,
        Alias.mk "d" "no-data" "bool" (some "data") (some false)] :=
  ⟨⟨by decide, rfl⟩,
    @c8_idempotent [Alias.mk "d" "data" "bool" none none]
      [Alias.mk "d" "data" "bool" none none,
        Alias.mk "d" "no-data" "bool" (some "data") (some false)] (by decide) rfl⟩

/-- C9 (counterexample): duplicate keys do reach the splitter: two rows
sharing letter `s` (resolved through DUPES) both write the short-option key
`s`, so the last-writer-wins path is exercised on a sequence produced by the
extractor and normalizer. -/
theorem c9_counterexample :
    parseAliases ["struct LongShort aliases[]= \x7b",
        "  \x7b\"s\", \"ftp-ssl\", ARG_STRING\x7d,",
        "  \x7b\"s\", \"ssl\", ARG_STRING\x7d,", "\x7d;"]
      = .ok [Alias.mk "s" "ftp-ssl" "string" none none,
          Alias.mk "s" "ssl" "string" none none] ∧
    fillOutAliases [Alias.mk "s" "ftp-ssl" "string" none none,
        Alias.mk "s" "ssl" "string" none none]
      = .ok [Alias.mk "s" "ftp-ssl" "string" (some "ssl") none,
          Alias.mk "s" "ssl" "string" none none] ∧
    ("s", "ssl") ∈ (split [Alias.mk "s" "ftp-ssl" "string" (some "ssl") none,
        Alias.mk "s" "ssl" "string" none none]).2 ∧
    (List.filter (fun a => decide (a.letter = "s" ∧ a.letter.length = 1))
        [Alias.mk "s" "ftp-ssl" "string" (some "ssl") none,
          Alias.mk "s" "ssl" "string" none none]).length = 2 :=
  ⟨rfl, rfl, by decide, by decide⟩

/-- C9 (amended): every long-option key is written by exactly one alias of the
normalized sequence, provided the raw lnames are distinct and no raw lname
equals `"no-"` + the lname of a `bool`-typed raw alias; the corresponding
guarantee does not hold for short-option keys. -/
theorem c9_long_keys_unique {rs out : List Alias}
    (hN : (rs.map (fun a => a.lname)).Nodup)
    (hno : ∀ a ∈ rs, ∀ b ∈ rs, b.type = "bool" → a.lname ≠ "no-" ++ b.lname)
    (h : fillOutAliases rs = .ok out) :
    ∀ kv ∈ (split out).1, (out.filter (fun a => decide (a.lname = kv.1))).length = 1 := by
  obtain ⟨ps, hm, hout⟩ := fillOut_ok_ps h
  subst hout
  have hln : (flattenPs ps).map (fun a => a.lname) = outLnames rs :=
    flatten_lnames (mapExcept_ok_forall₂ hm)
  have hnd : ((flattenPs ps).map (fun a => a.lname)).Nodup := by
    rw [hln]
    exact outLnames_nodup hN (fun a b ha hb => hno a ha b hb)
  intro kv hkv
  obtain ⟨k, v⟩ := kv
  rcases splitGo_long_source (flattenPs ps) [] [] hkv with h1 | h1
  · cases h1
  · obtain ⟨a, ha, hlname⟩ := h1
    exact count_lname_one hnd (List.mem_map.mpr ⟨a, ha, hlname⟩)

/-- C9 (witness): the amended theorem applied to a singleton `bool` alias and
the long key `data`. -/
theorem c9_long_keys_unique_witness :
    (([Alias.mk "d" "data" "bool" none none].map (fun a => a.lname)).Nodup ∧
      (∀ a ∈ [Alias.mk "d" "data" "bool" none none],
        ∀ b ∈ [Alias.mk "d" "data" "bool" none none],
          b.type = "bool" → a.lname ≠ "no-" ++ b.lname) ∧
      ("data", LongVal.mk "bool" none none) ∈
        (split [Alias.mk "d" "data" "bool" none none,
          Alias.mk "d" "no-data" "bool" (some "data") (some false)]).1) ∧
    (List.filter (fun a => decide (a.lname = "data"))
      [Alias.mk "d" "data" "bool" none none,
        Alias.mk "d" "no-data" "bool" (some "data") (some false)]).length = 1 :=
  ⟨⟨by decide, by decide, by decide⟩,
    @c9_long_keys_unique [Alias.mk "d" "data" "bool" none none]
      [Alias.mk "d" "data" "bool" none none,
        Alias.mk "d" "no-data" "bool" (some "data") (some false)]
      (by decide) (by decide) rfl ("data", LongVal.mk "bool" none none) (by decide)⟩

/-- C10: negation-prefix stripping is sequential (`no-` first, then
`disable-` on the result) and applies to both `bool`- and `none`-typed
aliases: the head of the normalized singleton gets `name` = the doubly
stripped lname exactly when stripping changed it. -/
theorem c10_sequential_strip {a : Alias} {out : List Alias}
    (htype : a.type = "bool" ∨ a.type = "none") (hname : a.name = none)
    (h : fillOutAliases [a] = .ok out) :
    ∃ a' rest, out = a' :: rest ∧
      a'.name = (if dropPre "disable-" (dropPre "no-" a.lname) = a.lname then none
                 else some (dropPre "disable-" (dropPre "no-" a.lname))) := by
  obtain ⟨ps, hm, hout⟩ := fillOut_ok_ps h
  have hps : ∃ p, processAlias (letterCount [a]) a = .ok p ∧ ps = [p] := by
    cases hpa : processAlias (letterCount [a]) a with
    | error e => rw [mapExcept, hpa] at hm; cases hm
    | ok p =>
      rw [mapExcept, hpa] at hm
      simp only [mapExcept] at hm
      injection hm with hm2
      exact ⟨p, rfl, hm2.symm⟩
  obtain ⟨p, hpa, hpsv⟩ := hps
  subst hpsv
  have hlc : ¬ letterCount [a] ((stripNamed a).letter) > 1 := by
    rw [(stripNamed_fields a).1]
    have : letterCount [a] a.letter = 1 := by simp [letterCount]
    omega
  have hpa2 : processAlias (letterCount [a]) a = .ok (finishAlias (stripNamed a)) := by
    simp only [processAlias]
    rw [if_neg hlc]
  rw [hpa2] at hpa
  injection hpa with hp
  subst hp
  have hsn : (stripNamed a).name =
      (if dropPre "disable-" (dropPre "no-" a.lname) = a.lname then none
       else some (dropPre "disable-" (dropPre "no-" a.lname))) := by
    unfold stripNamed
    have hmem : a.type ∈ BOOL_TYPES := by
      rcases htype with h1 | h1 <;> simp [BOOL_TYPES, h1]
    rw [if_pos hmem]
    by_cases hw : dropPre "disable-" (dropPre "no-" a.lname) = a.lname
    · rw [if_neg (fun hh => hh hw.symm), if_pos hw]
      exact hname
    · rw [if_pos (fun hh => hw hh.symm), if_neg hw]
  subst hout
  rcases hq : finishAlias (stripNamed a) with ⟨x, o⟩
  have hxname : x.name = (stripNamed a).name := by
    have hfn := finishAlias_fst_name (stripNamed a)
    rw [hq] at hfn
    exact hfn
  cases o with
  | none => exact ⟨x, [], rfl, hxname.trans hsn⟩
  | some b => exact ⟨x, [b], rfl, hxname.trans hsn⟩

/-- C10 (witness): the theorem applied to lname `no-disable-x`, whose derived
name is `x` — both prefixes stripped, sequentially. -/
theorem c10_sequential_strip_witness :
    (((Alias.mk "x" "no-disable-x" "none" none none).type = "bool" ∨
        (Alias.mk "x" "no-disable-x" "none" none none).type = "none") ∧
      fillOutAliases [Alias.mk "x" "no-disable-x" "none" none none] =
        .ok [Alias.mk "x" "no-disable-x" "bool" (some "x") none]) ∧
    ∃ a' rest, [Alias.mk "x" "no-disable-x" "bool" (some "x") none] = a' :: rest ∧
      a'.name = (if dropPre "disable-" (dropPre "no-" "no-disable-x") = "no-disable-x"
                 then none
                 else some (dropPre "disable-" (dropPre "no-" "no-disable-x"))) :=
  ⟨⟨Or.inr rfl, rfl⟩,
    @c10_sequential_strip (Alias.mk "x" "no-disable-x" "none" none none)
      [Alias.mk "x" "no-disable-x" "bool" (some "x") none] (Or.inr rfl) rfl rfl⟩

end CurlArgs
